import Mathlib

/-!
Verification of the MVCC coordinator (`src/kudu/tablet/mvcc.cc`) and the
companion transaction-status state machine
(`src/kudu/transactions/txn_status_manager.cc`) of the kudu repository.

The C++ state is embedded shallowly:
* `Timestamp` is a natural number; the source's `Timestamp::val_type` is
  `uint64_t`, so every timestamp handled by the program satisfies
  `t ≤ kMaxTimestamp`.  The sentinel constants live in `common/timestamp.h`,
  which is not among the provided sources; their values are pinned by the
  spec and by `mvcc-test.cc` (the initial snapshot prints `T < 1`, so
  `kInitialTimestamp = 1`; `kMin` is the smallest and `kMax` the largest
  64-bit value).
* The `unordered_map<Timestamp::val_type, TxnState>` of in-flight
  timestamps becomes an association list with unique keys; iteration order
  is irrelevant to every computation the source performs on it (minimum,
  membership).
* `LOG(FATAL)` / failed `CHECK` terminates the process: operations return
  `Option`, with `none` standing for process termination.
* The blocking of waiters is not modelled (it is scheduling, not state);
  what is modelled is the waiter list itself: registration appends an
  entry, wake-ups and `Close()` remove entries, a timed-out waiter removes
  its own entry.
-/

namespace Kudu

/-! ### Timestamps (`common/timestamp.h`, pinned by the spec and mvcc-test.cc) -/

abbrev Ts := Nat

def kMinTimestamp : Ts := 0

def kMaxTimestamp : Ts := 18446744073709551615

def kInitialTimestamp : Ts := 1

/-- A value representable as the source's `Timestamp::val_type` (`uint64_t`). -/
def tsOk (t : Ts) : Bool := t ≤ kMaxTimestamp

/-! ### MvccSnapshot (`mvcc.cc`) -/

structure MvccSnapshot where
  all_committed_before : Ts
  committed_timestamps : List Ts
  none_committed_at_or_after : Ts
deriving DecidableEq

/-- `MvccSnapshot::IsCommittedFallback`: linear scan of the explicit set. -/
def IsCommittedFallback (s : MvccSnapshot) (t : Ts) : Bool :=
  s.committed_timestamps.any (fun v => v == t)

/-- Modelled from the spec: `MvccSnapshot::IsCommitted` is defined inline in
`mvcc.h`, which is not among the provided sources.  Per spec §4.1 it is true
iff `t < all_committed_before_`, else falls back to membership in the
explicit committed set (`IsCommittedFallback`, which is in `mvcc.cc`). -/
def IsCommitted (s : MvccSnapshot) (t : Ts) : Bool :=
  if t < s.all_committed_before then true else IsCommittedFallback s t

/-- `MvccSnapshot::MayHaveCommittedOpsAtOrAfter`. -/
def MayHaveCommittedOpsAtOrAfter (s : MvccSnapshot) (t : Ts) : Bool :=
  t < s.none_committed_at_or_after

/-- `MvccSnapshot::AddCommittedTimestamp`. -/
def AddCommittedTimestamp (s : MvccSnapshot) (t : Ts) : MvccSnapshot :=
  if IsCommitted s t then s
  else
    let s' := { s with committed_timestamps := s.committed_timestamps ++ [t] }
    if s'.none_committed_at_or_after ≤ t then
      { s' with none_committed_at_or_after := t + 1 }
    else s'

/-- `FilterTimestamps` (static helper in `mvcc.cc`): keep the elements
`≥ watermark`, preserving order. -/
def FilterTimestamps (v : List Ts) (watermark : Ts) : List Ts :=
  v.filter (fun ts => watermark ≤ ts)

/-! ### MvccManager state (`mvcc.h`/`mvcc.cc`) -/

inductive TxnState where
  | RESERVED
  | APPLYING
deriving DecidableEq

inductive WaitFor where
  | ALL_COMMITTED
  | NONE_APPLYING
deriving DecidableEq

/-- A registered waiter (`MvccManager::WaitingState`, minus the latch). -/
structure WaitingState where
  timestamp : Ts
  wait_for : WaitFor
deriving DecidableEq

structure MvccManager where
  cur_snap : MvccSnapshot
  timestamps_in_flight : List (Ts × TxnState)
  new_op_timestamp_exc_lower_bound : Ts
  earliest_in_flight : Ts
  open_ : Bool
  waiters : List WaitingState
deriving DecidableEq

/-- Lookup in the in-flight map. -/
def findInFlight (l : List (Ts × TxnState)) (t : Ts) : Option TxnState :=
  (l.find? (fun p => p.1 == t)).map Prod.snd

/-- Erase a key from the in-flight map. -/
def removeInFlight (l : List (Ts × TxnState)) (t : Ts) : List (Ts × TxnState) :=
  l.filter (fun p => !(p.1 == t))

/-- Minimum of a list of naturals, `kMaxTimestamp` if empty. -/
def minKeyNat : List Ts → Ts
  | [] => kMaxTimestamp
  | x :: xs => xs.foldl Nat.min x

/-- Minimum key of the in-flight map, `kMaxTimestamp` if empty
(the value `std::min_element` produces in `AdvanceEarliestInFlightTimestamp`). -/
def minKey (l : List (Ts × TxnState)) : Ts := minKeyNat (l.map Prod.fst)

/-- `MvccManager::AdvanceEarliestInFlightTimestamp`. -/
def AdvanceEarliestInFlightTimestamp (m : MvccManager) : MvccManager :=
  if m.timestamps_in_flight.isEmpty then
    { m with earliest_in_flight := kMaxTimestamp }
  else
    { m with earliest_in_flight := minKey m.timestamps_in_flight }

/-- `MvccManager::RemoveInFlightAndGetStateUnlocked`: `none` is the
`LOG(FATAL)` on a timestamp that is not in flight. -/
def RemoveInFlightAndGetStateUnlocked (m : MvccManager) (t : Ts) :
    Option (TxnState × MvccManager) :=
  match findInFlight m.timestamps_in_flight t with
  | none => none
  | some st =>
      some (st, { m with timestamps_in_flight := removeInFlight m.timestamps_in_flight t })

/-- `MvccManager::AbortOp`.  `none` is process termination (CHECK failure). -/
def AbortOp (m : MvccManager) (t : Ts) : Option MvccManager :=
  match RemoveInFlightAndGetStateUnlocked m t with
  | none => none
  | some (old_state, m1) =>
      if m.open_ = false then some m1
      else if old_state ≠ TxnState.RESERVED then none
      else if m.earliest_in_flight = t then some (AdvanceEarliestInFlightTimestamp m1)
      else some m1

/-- `MvccManager::CommitOpUnlocked`: returns `was_earliest_in_flight` and the
updated state; `none` is process termination. -/
def CommitOpUnlocked (m : MvccManager) (t : Ts) : Option (Bool × MvccManager) :=
  let was_earliest := m.earliest_in_flight = t
  match RemoveInFlightAndGetStateUnlocked m t with
  | none => none
  | some (old_state, m1) =>
      if old_state ≠ TxnState.APPLYING then none
      else
        let m2 := { m1 with cur_snap := AddCommittedTimestamp m1.cur_snap t }
        if was_earliest then some (true, AdvanceEarliestInFlightTimestamp m2)
        else some (false, m2)

/-- `MvccManager::AreAllOpsCommittedUnlocked`. -/
def AreAllOpsCommittedUnlocked (m : MvccManager) (ts : Ts) : Bool :=
  if ts < m.cur_snap.all_committed_before then true
  else decide (ts < m.earliest_in_flight)

/-- `MvccManager::AnyApplyingAtOrBeforeUnlocked`: scans every in-flight
entry, whatever its state. -/
def AnyApplyingAtOrBeforeUnlocked (m : MvccManager) (ts : Ts) : Bool :=
  m.timestamps_in_flight.any (fun p => p.1 ≤ ts)

/-- `MvccManager::IsDoneWaitingUnlocked`. -/
def IsDoneWaitingUnlocked (m : MvccManager) (w : WaitingState) : Bool :=
  match w.wait_for with
  | WaitFor.ALL_COMMITTED => AreAllOpsCommittedUnlocked m w.timestamp
  | WaitFor.NONE_APPLYING => !AnyApplyingAtOrBeforeUnlocked m w.timestamp

/-- `MvccManager::AdjustCleanTimeUnlocked`: recompute the clean watermark,
filter the explicit set, possibly pull up `none_committed_at_or_after`, and
wake (remove) every waiter whose condition is now satisfied. -/
def AdjustCleanTimeUnlocked (m : MvccManager) : MvccManager :=
  let acb := if m.earliest_in_flight < m.new_op_timestamp_exc_lower_bound then
               m.earliest_in_flight
             else m.new_op_timestamp_exc_lower_bound
  let filtered := FilterTimestamps m.cur_snap.committed_timestamps acb
  let ncaoa := if filtered.isEmpty then acb else m.cur_snap.none_committed_at_or_after
  let m1 := { m with cur_snap := MvccSnapshot.mk acb filtered ncaoa }
  { m1 with waiters := m1.waiters.filter (fun w => !IsDoneWaitingUnlocked m1 w) }

/-- `MvccManager::CommitOp`. -/
def CommitOp (m : MvccManager) (t : Ts) : Option MvccManager :=
  match CommitOpUnlocked m t with
  | none => none
  | some (was_earliest, m1) =>
      if was_earliest ∧ m1.new_op_timestamp_exc_lower_bound ≥ t then
        some (AdjustCleanTimeUnlocked m1)
      else some m1

/-- `MvccManager::AdjustNewOpLowerBound`: moving backwards is a no-op. -/
def AdjustNewOpLowerBound (m : MvccManager) (t : Ts) : MvccManager :=
  if m.new_op_timestamp_exc_lower_bound ≤ t then
    AdjustCleanTimeUnlocked { m with new_op_timestamp_exc_lower_bound := t }
  else m

/-- `MvccManager::InitOpUnlocked`. -/
def InitOpUnlocked (m : MvccManager) (t : Ts) : Option MvccManager :=
  if t ≤ m.new_op_timestamp_exc_lower_bound then none
  else
    let m1 := if t < m.earliest_in_flight then { m with earliest_in_flight := t } else m
    if (findInFlight m1.timestamps_in_flight t).isSome then none
    else some { m1 with timestamps_in_flight := (t, TxnState.RESERVED) :: m1.timestamps_in_flight }

/-- `MvccManager::StartOp`.  `none` is process termination (CHECK failure). -/
def StartOp (m : MvccManager) (t : Ts) : Option MvccManager :=
  if IsCommitted m.cur_snap t then none else InitOpUnlocked m t

/-- `MvccManager::StartApplyingOp`. -/
def StartApplyingOp (m : MvccManager) (t : Ts) : Option MvccManager :=
  match findInFlight m.timestamps_in_flight t with
  | none => none
  | some TxnState.APPLYING => none
  | some TxnState.RESERVED =>
      let infl := m.timestamps_in_flight.map
        (fun p => if p.1 = t then (p.1, TxnState.APPLYING) else p)
      some { m with timestamps_in_flight := infl }

/-- `MvccManager::Close`: flips `open_` and wakes (drains) every waiter. -/
def Close (m : MvccManager) : MvccManager :=
  { m with open_ := false, waiters := [] }

/-- The state effect of entering `MvccManager::WaitUntil`: a closed manager
or an already-satisfied condition registers nothing, otherwise the waiter is
appended to the list. -/
def WaitUntilRegister (m : MvccManager) (wf : WaitFor) (ts : Ts) : MvccManager :=
  if m.open_ = false then m
  else if IsDoneWaitingUnlocked m (WaitingState.mk ts wf) then m
  else { m with waiters := m.waiters ++ [WaitingState.mk ts wf] }

/-- The state effect of a waiter timing out: it erases its own entry. -/
def WaiterTimeoutRemove (m : MvccManager) (i : Nat) : MvccManager :=
  { m with waiters := m.waiters.eraseIdx i }

/-- `MvccManager::TakeSnapshot`. -/
def TakeSnapshot (m : MvccManager) : MvccSnapshot := m.cur_snap

/-- `MvccManager::GetCleanTimestamp`. -/
def GetCleanTimestamp (m : MvccManager) : Ts := m.cur_snap.all_committed_before

/-- `MvccManager::~MvccManager`: `CHECK(waiters_.empty())`; `none` is the
process crash on a non-empty waiter list. -/
def MvccManagerDestructor (m : MvccManager) : Option Unit :=
  if m.waiters.isEmpty then some () else none

/-- The `MvccManager` constructor. -/
def mvccInit : MvccManager where
  cur_snap := MvccSnapshot.mk kInitialTimestamp [] kInitialTimestamp
  timestamps_in_flight := []
  new_op_timestamp_exc_lower_bound := kMinTimestamp
  earliest_in_flight := kMaxTimestamp
  open_ := true
  waiters := []

/-! ### The operation alphabet and legal traces -/

/-- One externally-observable state change of the coordinator. -/
inductive MvccOp where
  | startOp (t : Ts)
  | startApplyingOp (t : Ts)
  | commitOp (t : Ts)
  | abortOp (t : Ts)
  | adjustNewOpLowerBound (t : Ts)
  | close
  | waitRegister (wf : WaitFor) (t : Ts)
  | waiterTimeout (i : Nat)
deriving DecidableEq

/-- Apply one operation; `none` when the source would crash the process
(failed CHECK / `LOG(FATAL)`), or when the timestamp argument is not a
64-bit value (such a call cannot occur in the C++ program). -/
def applyOp (m : MvccManager) : MvccOp → Option MvccManager
  | MvccOp.startOp t => if tsOk t then StartOp m t else none
  | MvccOp.startApplyingOp t => if tsOk t then StartApplyingOp m t else none
  | MvccOp.commitOp t => if tsOk t then CommitOp m t else none
  | MvccOp.abortOp t => if tsOk t then AbortOp m t else none
  | MvccOp.adjustNewOpLowerBound t => if tsOk t then some (AdjustNewOpLowerBound m t) else none
  | MvccOp.close => some (Close m)
  | MvccOp.waitRegister wf t => if tsOk t then some (WaitUntilRegister m wf t) else none
  | MvccOp.waiterTimeout i => some (WaiterTimeoutRemove m i)

/-- Run a sequence of operations; `none` as soon as one is illegal. -/
def runOps (m : MvccManager) : List MvccOp → Option MvccManager
  | [] => some m
  | op :: ops =>
      match applyOp m op with
      | none => none
      | some m' => runOps m' ops

/-- A coordinator state produced from a fresh coordinator by a sequence of
legal operations. -/
def Reachable (m : MvccManager) : Prop := ∃ ops, runOps mvccInit ops = some m

/-! ### Companion transaction-status state machine (`txn_status_manager.cc`) -/

inductive TxnStatePB where
  | UNKNOWN
  | OPEN
  | COMMIT_IN_PROGRESS
  | COMMITTED
  | ABORTED
deriving DecidableEq

structure TransactionEntry where
  state : TxnStatePB
  user : String
deriving DecidableEq

structure TxnStatusManager where
  highest_txn_id : Int
  txns_by_id : List (Int × TransactionEntry)
deriving DecidableEq

inductive TxnResult where
  | ok
  | invalidArgument
  | persistFailed
deriving DecidableEq

/-- `TxnStatusManager::BeginTransaction`.  The durable registry
(`status_tablet_.AddNewTransaction`) is external; its success is the oracle
`persistOk`.  `none` is the process death of `EmplaceOrDie` on a duplicate
key.  Note the source advances `highest_txn_id_` under the lock *before*
persisting, and does not roll it back when persistence fails. -/
def BeginTransaction (m : TxnStatusManager) (txn_id : Int) (user : String)
    (persistOk : Bool) : Option (TxnResult × TxnStatusManager) :=
  if txn_id ≤ m.highest_txn_id then
    some (TxnResult.invalidArgument, m)
  else
    let m1 := { m with highest_txn_id := txn_id }
    if persistOk = false then some (TxnResult.persistFailed, m1)
    else if (m1.txns_by_id.find? (fun p => p.1 == txn_id)).isSome then none
    else
      some (TxnResult.ok,
        { m1 with txns_by_id :=
            m1.txns_by_id ++ [(txn_id, TransactionEntry.mk TxnStatePB.OPEN user)] })

/-! ### Concrete coordinator states used in witnesses and counterexamples -/

/-- After `start_op(1); start_applying(1)` on a fresh coordinator. -/
def mgrApplyingOne : MvccManager :=
  MvccManager.mk (MvccSnapshot.mk 1 [] 1) [(1, TxnState.APPLYING)] 0 1 true []

/-- After additionally `commit_op(1)`. -/
def mgrCommittedOne : MvccManager :=
  MvccManager.mk (MvccSnapshot.mk 1 [1] 2) [] 0 kMaxTimestamp true []

/-- After additionally `start_op(2)`. -/
def mgrCommittedOneStartedTwo : MvccManager :=
  MvccManager.mk (MvccSnapshot.mk 1 [1] 2) [(2, TxnState.RESERVED)] 0 2 true []

/-- After `adjust_new_op_lower_bound(kMin)` on a fresh coordinator. -/
def mgrAdjustedToZero : MvccManager :=
  MvccManager.mk (MvccSnapshot.mk 0 [] 0) [] 0 kMaxTimestamp true []

/-- After `adjust_new_op_lower_bound(5)` on a fresh coordinator. -/
def mgrAdjustedToFive : MvccManager :=
  MvccManager.mk (MvccSnapshot.mk 5 [] 5) [] 5 kMaxTimestamp true []

/-- After `start_op(1); start_op(2); close(); abort_op(1)` on a fresh
coordinator: the abort while closed leaves `earliest_in_flight` stale. -/
def mgrClosedStaleEarliest : MvccManager :=
  MvccManager.mk (MvccSnapshot.mk 1 [] 1) [(2, TxnState.RESERVED)] 0 1 false []

/-- After `start_op(3)` on a fresh coordinator. -/
def mgrOpenStartedThree : MvccManager :=
  MvccManager.mk (MvccSnapshot.mk 1 [] 1) [(3, TxnState.RESERVED)] 0 3 true []

/-- After `start_op(1); start_applying(1); close()` on a fresh coordinator. -/
def mgrClosedApplyingOne : MvccManager :=
  MvccManager.mk (MvccSnapshot.mk 1 [] 1) [(1, TxnState.APPLYING)] 0 1 false []

/-- Spec §8 seed scenario 3: after `start_op(50); start_applying(50)` on a
fresh coordinator whose lower bound was never advanced. -/
def mgrApplyingFifty : MvccManager :=
  MvccManager.mk (MvccSnapshot.mk 1 [] 1) [(50, TxnState.APPLYING)] 0 50 true []

/-- After additionally `commit_op(50)`: the clean timestamp stays INITIAL. -/
def mgrCommittedFifty : MvccManager :=
  MvccManager.mk (MvccSnapshot.mk 1 [50] 51) [] 0 kMaxTimestamp true []

/-- A fresh transaction-status manager. -/
def txnMgrEmpty : TxnStatusManager := TxnStatusManager.mk 0 []

/-- After a successful `begin(3)` by user "u". -/
def txnMgrOpenThree : TxnStatusManager :=
  TxnStatusManager.mk 3 [(3, TransactionEntry.mk TxnStatePB.OPEN "u")]

/-! ### Toolkit: folded minima and association-list lemmas -/

theorem natMin_eq_left {a b : Nat} (h : a ≤ b) : Nat.min a b = a := Nat.min_eq_left h

theorem natMin_eq_right {a b : Nat} (h : b ≤ a) : Nat.min a b = b := Nat.min_eq_right h

theorem natMin_assoc (a b c : Nat) : Nat.min (Nat.min a b) c = Nat.min a (Nat.min b c) :=
  Nat.min_assoc a b c

theorem foldl_min_le_init (xs : List Nat) (a : Nat) : xs.foldl Nat.min a ≤ a := by
  induction xs generalizing a with
  | nil => exact Nat.le_refl a
  | cons x xs ih => exact Nat.le_trans (ih (Nat.min a x)) (Nat.min_le_left a x)

theorem foldl_min_le_mem (xs : List Nat) (a x : Nat) (hx : x ∈ xs) :
    xs.foldl Nat.min a ≤ x := by
  induction xs generalizing a with
  | nil => cases hx
  | cons y ys ih =>
      rcases List.mem_cons.mp hx with h | h
      · subst h
        exact Nat.le_trans (foldl_min_le_init ys (Nat.min a x)) (Nat.min_le_right a x)
      · exact ih (Nat.min a y) h

theorem le_foldl_min (xs : List Nat) (a c : Nat) (ha : c ≤ a) (h : ∀ x ∈ xs, c ≤ x) :
    c ≤ xs.foldl Nat.min a := by
  induction xs generalizing a with
  | nil => exact ha
  | cons y ys ih =>
      exact ih (Nat.min a y) (Nat.le_min.mpr ⟨ha, h y (List.mem_cons_self y ys)⟩)
        (fun x hx => h x (List.mem_cons_of_mem y hx))

theorem foldl_min_choice (xs : List Nat) (a : Nat) :
    xs.foldl Nat.min a = a ∨ xs.foldl Nat.min a ∈ xs := by
  induction xs generalizing a with
  | nil => exact Or.inl rfl
  | cons y ys ih =>
      rcases ih (Nat.min a y) with h | h
      · rcases Nat.le_total a y with hay | hya
        · exact Or.inl (h.trans (natMin_eq_left hay))
        · refine Or.inr ?_
          have hy : List.foldl Nat.min a (y :: ys) = y := h.trans (natMin_eq_right hya)
          rw [hy]
          exact List.mem_cons_self y ys
      · exact Or.inr (List.mem_cons_of_mem y h)

theorem foldl_min_init_comm (xs : List Nat) (a b : Nat) :
    xs.foldl Nat.min (Nat.min a b) = Nat.min a (xs.foldl Nat.min b) := by
  induction xs generalizing b with
  | nil => rfl
  | cons y ys ih =>
      show ys.foldl Nat.min (Nat.min (Nat.min a b) y) = Nat.min a (ys.foldl Nat.min (Nat.min b y))
      have h1 : Nat.min (Nat.min a b) y = Nat.min a (Nat.min b y) := natMin_assoc a b y
      rw [h1, ih (Nat.min b y)]

theorem minKeyNat_le_mem (xs : List Nat) (x : Nat) (hx : x ∈ xs) : minKeyNat xs ≤ x := by
  cases xs with
  | nil => cases hx
  | cons y ys =>
      rcases List.mem_cons.mp hx with h | h
      · subst h; exact foldl_min_le_init ys x
      · exact foldl_min_le_mem ys y x h

theorem le_minKeyNat (xs : List Nat) (c : Nat) (hc : c ≤ kMaxTimestamp)
    (h : ∀ x ∈ xs, c ≤ x) : c ≤ minKeyNat xs := by
  cases xs with
  | nil => exact hc
  | cons y ys =>
      exact le_foldl_min ys y c (h y (List.mem_cons_self y ys))
        (fun x hx => h x (List.mem_cons_of_mem y hx))

theorem minKeyNat_mem (xs : List Nat) (hxs : xs ≠ []) : minKeyNat xs ∈ xs := by
  cases xs with
  | nil => exact absurd rfl hxs
  | cons y ys =>
      rcases foldl_min_choice ys y with h | h
      · rw [show minKeyNat (y :: ys) = ys.foldl Nat.min y from rfl, h]
        exact List.mem_cons_self y ys
      · exact List.mem_cons_of_mem y h

theorem minKeyNat_cons (x : Nat) (xs : List Nat) (hx : x ≤ kMaxTimestamp) :
    minKeyNat (x :: xs) = Nat.min x (minKeyNat xs) := by
  cases xs with
  | nil =>
      show x = Nat.min x kMaxTimestamp
      exact (natMin_eq_left hx).symm
  | cons y ys =>
      show ys.foldl Nat.min (Nat.min x y) = Nat.min x (ys.foldl Nat.min y)
      exact foldl_min_init_comm ys x y

theorem minKey_le_mem (l : List (Ts × TxnState)) (p : Ts × TxnState) (hp : p ∈ l) :
    minKey l ≤ p.1 :=
  minKeyNat_le_mem (l.map Prod.fst) p.1 (List.mem_map_of_mem Prod.fst hp)

theorem le_minKey (l : List (Ts × TxnState)) (c : Ts) (hc : c ≤ kMaxTimestamp)
    (h : ∀ p ∈ l, c ≤ p.1) : c ≤ minKey l := by
  refine le_minKeyNat (l.map Prod.fst) c hc ?_
  intro x hx
  rcases List.mem_map.mp hx with ⟨p, hp, hpx⟩
  exact hpx ▸ h p hp

theorem minKey_attained (l : List (Ts × TxnState)) (hl : l ≠ []) :
    ∃ p ∈ l, p.1 = minKey l := by
  have h : minKeyNat (l.map Prod.fst) ∈ l.map Prod.fst := by
    refine minKeyNat_mem _ ?_
    intro hemp
    exact hl (List.map_eq_nil_iff.mp hemp)
  rcases List.mem_map.mp h with ⟨p, hp, hpx⟩
  exact ⟨p, hp, hpx⟩

theorem minKey_cons (t : Ts) (st : TxnState) (l : List (Ts × TxnState))
    (ht : t ≤ kMaxTimestamp) : minKey ((t, st) :: l) = Nat.min t (minKey l) :=
  minKeyNat_cons t (l.map Prod.fst) ht

theorem minKey_le_max (l : List (Ts × TxnState))
    (h : ∀ p ∈ l, p.1 ≤ kMaxTimestamp) : minKey l ≤ kMaxTimestamp := by
  cases l with
  | nil => exact Nat.le_refl _
  | cons p ps =>
      rcases minKey_attained (p :: ps) (by simp) with ⟨q, hq, hqe⟩
      exact hqe ▸ h q hq

theorem mem_removeInFlight {l : List (Ts × TxnState)} {t : Ts} {p : Ts × TxnState} :
    p ∈ removeInFlight l t ↔ p ∈ l ∧ p.1 ≠ t := by
  unfold removeInFlight
  rw [List.mem_filter]
  simp

theorem findInFlight_some {l : List (Ts × TxnState)} {t : Ts} {st : TxnState}
    (h : findInFlight l t = some st) : (t, st) ∈ l := by
  unfold findInFlight at h
  rcases Option.map_eq_some'.mp h with ⟨p, hp, hsnd⟩
  have hmem := List.mem_of_find?_eq_some hp
  have hkey : p.1 = t := by
    have := List.find?_some hp
    exact eq_of_beq this
  have : p = (t, st) := by
    cases p with
    | mk a b => cases hkey; cases hsnd; rfl
  exact this ▸ hmem

theorem findInFlight_none {l : List (Ts × TxnState)} {t : Ts}
    (h : findInFlight l t = none) : ∀ p ∈ l, p.1 ≠ t := by
  unfold findInFlight at h
  intro p hp hpt
  have hfind := Option.map_eq_none'.mp h
  have := List.find?_eq_none.mp hfind p hp
  exact this (by simpa using hpt)

theorem minKey_remove_ne (l : List (Ts × TxnState)) (t : Ts)
    (hne : minKey l ≠ t) (hl : l ≠ [])
    (hmax : ∀ p ∈ l, p.1 ≤ kMaxTimestamp) :
    minKey (removeInFlight l t) = minKey l := by
  rcases minKey_attained l hl with ⟨p, hp, hpe⟩
  have hpmem : p ∈ removeInFlight l t := mem_removeInFlight.mpr ⟨hp, hpe ▸ hne⟩
  apply Nat.le_antisymm
  · calc minKey (removeInFlight l t) ≤ p.1 := minKey_le_mem _ p hpmem
      _ = minKey l := hpe
  · refine le_minKey _ _ (hpe ▸ hmax p hp) ?_
    intro q hq
    exact minKey_le_mem l q (mem_removeInFlight.mp hq).1

/-! ### The coordinator invariant -/

/-- Snapshot well-formedness: spec §3 invariants 1 and 2. -/
structure SnapOk (s : MvccSnapshot) : Prop where
  acb_le_ncaoa : s.all_committed_before ≤ s.none_committed_at_or_after
  mem_bounds : ∀ v ∈ s.committed_timestamps,
    s.all_committed_before ≤ v ∧ v < s.none_committed_at_or_after

/-- The inductive invariant of reachable coordinator states. -/
structure Inv (m : MvccManager) : Prop where
  snap : SnapOk m.cur_snap
  acb_le_lb : m.cur_snap.all_committed_before ≤
    max m.new_op_timestamp_exc_lower_bound kInitialTimestamp
  lb_le_max : m.new_op_timestamp_exc_lower_bound ≤ kMaxTimestamp
  acb_le_earliest : m.cur_snap.all_committed_before ≤ m.earliest_in_flight
  earliest_le_max : m.earliest_in_flight ≤ kMaxTimestamp
  inflight_bounds : ∀ p ∈ m.timestamps_in_flight,
    m.earliest_in_flight ≤ p.1 ∧ kInitialTimestamp ≤ p.1 ∧ p.1 ≤ kMaxTimestamp
  earliest_exact : m.open_ = true → m.earliest_in_flight = minKey m.timestamps_in_flight

/-! ### Lemmas about the snapshot mutators -/

theorem mem_FilterTimestamps {v : List Ts} {w x : Ts} :
    x ∈ FilterTimestamps v w ↔ x ∈ v ∧ w ≤ x := by
  unfold FilterTimestamps
  rw [List.mem_filter]
  simp

theorem IsCommitted_true_of_mem {s : MvccSnapshot} {v : Ts}
    (h : v ∈ s.committed_timestamps) : IsCommitted s v = true := by
  unfold IsCommitted IsCommittedFallback
  split
  · rfl
  · simp only [List.any_eq_true]
    exact ⟨v, h, by simp⟩

theorem IsCommitted_cases {s : MvccSnapshot} {v : Ts} (h : IsCommitted s v = true) :
    v < s.all_committed_before ∨ v ∈ s.committed_timestamps := by
  unfold IsCommitted IsCommittedFallback at h
  by_cases hlt : v < s.all_committed_before
  · exact Or.inl hlt
  · rw [if_neg hlt] at h
    simp only [List.any_eq_true] at h
    rcases h with ⟨x, hx, hxe⟩
    have : x = v := by simpa using hxe
    exact Or.inr (this ▸ hx)

theorem acb_le_of_not_committed {s : MvccSnapshot} {t : Ts}
    (h : ¬ IsCommitted s t = true) : s.all_committed_before ≤ t := by
  by_contra hlt
  apply h
  unfold IsCommitted
  rw [if_pos (Nat.lt_of_not_le (fun hle => hlt hle))]

theorem AddCommittedTimestamp_acb (s : MvccSnapshot) (t : Ts) :
    (AddCommittedTimestamp s t).all_committed_before = s.all_committed_before := by
  unfold AddCommittedTimestamp
  split
  · rfl
  · dsimp only
    split <;> rfl

theorem AddCommittedTimestamp_ncaoa_ge (s : MvccSnapshot) (t : Ts) :
    s.none_committed_at_or_after ≤ (AddCommittedTimestamp s t).none_committed_at_or_after := by
  unfold AddCommittedTimestamp
  split
  · exact Nat.le_refl _
  · dsimp only
    split
    · next h => exact Nat.le_trans h (Nat.le_succ t)
    · exact Nat.le_refl _

theorem AddCommittedTimestamp_mem {s : MvccSnapshot} {t v : Ts} :
    v ∈ (AddCommittedTimestamp s t).committed_timestamps →
    v ∈ s.committed_timestamps ∨ (v = t ∧ IsCommitted s t = false) := by
  unfold AddCommittedTimestamp
  split
  · exact fun h => Or.inl h
  · next hnc =>
      dsimp only
      split
      · intro h
        rcases List.mem_append.mp h with h | h
        · exact Or.inl h
        · exact Or.inr ⟨by simpa using h, by simpa using hnc⟩
      · intro h
        rcases List.mem_append.mp h with h | h
        · exact Or.inl h
        · exact Or.inr ⟨by simpa using h, by simpa using hnc⟩

theorem AddCommittedTimestamp_snapOk {s : MvccSnapshot} (t : Ts) (h : SnapOk s) :
    SnapOk (AddCommittedTimestamp s t) := by
  unfold AddCommittedTimestamp
  split
  · exact h
  · next hnc =>
      have hacb : s.all_committed_before ≤ t := acb_le_of_not_committed (by simpa using hnc)
      dsimp only
      split
      · next hle =>
          constructor
          · exact Nat.le_trans hacb (Nat.le_succ t)
          · intro v hv
            rcases List.mem_append.mp hv with hv | hv
            · rcases h.mem_bounds v hv with ⟨h1, h2⟩
              exact ⟨h1, Nat.lt_trans h2 (Nat.lt_succ_of_le hle)⟩
            · have : v = t := by simpa using hv
              subst this
              exact ⟨hacb, Nat.lt_succ_self v⟩
      · next hgt =>
          have htlt : t < s.none_committed_at_or_after := Nat.lt_of_not_le hgt
          constructor
          · exact h.acb_le_ncaoa
          · intro v hv
            rcases List.mem_append.mp hv with hv | hv
            · exact h.mem_bounds v hv
            · have : v = t := by simpa using hv
              subst this
              exact ⟨hacb, htlt⟩

theorem AddCommittedTimestamp_committed (s : MvccSnapshot) (t : Ts) :
    IsCommitted (AddCommittedTimestamp s t) t = true := by
  unfold AddCommittedTimestamp
  split
  · next h => exact h
  · dsimp only
    split
    · exact IsCommitted_true_of_mem (by simp)
    · exact IsCommitted_true_of_mem (by simp)

theorem AddCommittedTimestamp_mono {s : MvccSnapshot} {v : Ts} (t : Ts)
    (h : IsCommitted s v = true) : IsCommitted (AddCommittedTimestamp s t) v = true := by
  rcases IsCommitted_cases h with hlt | hmem
  · unfold IsCommitted
    rw [AddCommittedTimestamp_acb, if_pos hlt]
  · refine IsCommitted_true_of_mem ?_
    unfold AddCommittedTimestamp
    split
    · exact hmem
    · dsimp only
      split
      · exact List.mem_append.mpr (Or.inl hmem)
      · exact List.mem_append.mpr (Or.inl hmem)

/-! ### Lemmas about clean-time recomputation -/

theorem adjust_inflight (m : MvccManager) :
    (AdjustCleanTimeUnlocked m).timestamps_in_flight = m.timestamps_in_flight := rfl

theorem adjust_earliest (m : MvccManager) :
    (AdjustCleanTimeUnlocked m).earliest_in_flight = m.earliest_in_flight := rfl

theorem adjust_lb (m : MvccManager) :
    (AdjustCleanTimeUnlocked m).new_op_timestamp_exc_lower_bound =
      m.new_op_timestamp_exc_lower_bound := rfl

theorem adjust_open (m : MvccManager) : (AdjustCleanTimeUnlocked m).open_ = m.open_ := rfl

theorem adjust_acb (m : MvccManager) :
    (AdjustCleanTimeUnlocked m).cur_snap.all_committed_before =
      if m.earliest_in_flight < m.new_op_timestamp_exc_lower_bound then m.earliest_in_flight
      else m.new_op_timestamp_exc_lower_bound := rfl

theorem adjust_committed (m : MvccManager) :
    (AdjustCleanTimeUnlocked m).cur_snap.committed_timestamps =
      FilterTimestamps m.cur_snap.committed_timestamps
        (AdjustCleanTimeUnlocked m).cur_snap.all_committed_before := rfl

theorem adjust_ncaoa (m : MvccManager) :
    (AdjustCleanTimeUnlocked m).cur_snap.none_committed_at_or_after =
      if (AdjustCleanTimeUnlocked m).cur_snap.committed_timestamps.isEmpty then
        (AdjustCleanTimeUnlocked m).cur_snap.all_committed_before
      else m.cur_snap.none_committed_at_or_after := rfl

theorem adjust_acb_le_lb (m : MvccManager) :
    (AdjustCleanTimeUnlocked m).cur_snap.all_committed_before ≤
      m.new_op_timestamp_exc_lower_bound := by
  rw [adjust_acb]
  split
  · next h => exact Nat.le_of_lt h
  · exact Nat.le_refl _

theorem adjust_acb_le_earliest (m : MvccManager) :
    (AdjustCleanTimeUnlocked m).cur_snap.all_committed_before ≤ m.earliest_in_flight := by
  rw [adjust_acb]
  split
  · exact Nat.le_refl _
  · next h => exact Nat.le_of_not_lt h

theorem adjust_snapOk (m : MvccManager) (h : SnapOk m.cur_snap) :
    SnapOk (AdjustCleanTimeUnlocked m).cur_snap := by
  set A := AdjustCleanTimeUnlocked m with hA
  have hmem : ∀ v ∈ A.cur_snap.committed_timestamps,
      A.cur_snap.all_committed_before ≤ v ∧ v < m.cur_snap.none_committed_at_or_after := by
    intro v hv
    rw [adjust_committed] at hv
    rcases mem_FilterTimestamps.mp hv with ⟨hvold, hge⟩
    exact ⟨hge, (h.mem_bounds v hvold).2⟩
  constructor
  · rw [adjust_ncaoa]
    split
    · exact Nat.le_refl _
    · next hne =>
        have : A.cur_snap.committed_timestamps ≠ [] := by
          intro hnil
          rw [hnil] at hne
          exact hne rfl
        rcases List.exists_mem_of_ne_nil _ this with ⟨v, hv⟩
        rcases hmem v hv with ⟨h1, h2⟩
        exact Nat.le_trans h1 (Nat.le_of_lt h2)
  · intro v hv
    refine ⟨(hmem v hv).1, ?_⟩
    rw [adjust_ncaoa]
    split
    · next hemp =>
        rw [List.isEmpty_iff] at hemp
        rw [hemp] at hv
        cases hv
    · exact (hmem v hv).2

theorem adjust_Inv (m : MvccManager) (h : Inv m) : Inv (AdjustCleanTimeUnlocked m) := by
  refine ⟨adjust_snapOk m h.snap, ?_, ?_, ?_, ?_, ?_, ?_⟩
  · rw [adjust_lb]
    exact Nat.le_trans (adjust_acb_le_lb m) (Nat.le_max_left _ _)
  · rw [adjust_lb]
    exact h.lb_le_max
  · rw [adjust_earliest]
    exact adjust_acb_le_earliest m
  · rw [adjust_earliest]
    exact h.earliest_le_max
  · rw [adjust_inflight, adjust_earliest]
    exact h.inflight_bounds
  · rw [adjust_open, adjust_inflight, adjust_earliest]
    exact h.earliest_exact

/-- If the clean watermark could only have been recomputed upwards
(`acb ≤ earliest` and `acb ≤ lb`), a committed timestamp stays committed. -/
theorem adjust_IsCommitted_pres (m : MvccManager) (v : Ts)
    (hle : m.cur_snap.all_committed_before ≤ m.earliest_in_flight)
    (hlb : m.cur_snap.all_committed_before ≤
      max m.new_op_timestamp_exc_lower_bound kInitialTimestamp)
    (hv1 : kInitialTimestamp ≤ v)
    (hcom : IsCommitted m.cur_snap v = true) :
    IsCommitted (AdjustCleanTimeUnlocked m).cur_snap v = true := by
  rcases IsCommitted_cases hcom with hlt | hmem
  · -- committed through the watermark: show it is still below the new watermark
    have hlt' : v < (AdjustCleanTimeUnlocked m).cur_snap.all_committed_before := by
      rw [adjust_acb]
      split
      · exact Nat.lt_of_lt_of_le hlt hle
      · -- new watermark is the lower bound; v < acb ≤ max lb kInitial and kInitial ≤ v
        rcases Nat.le_total m.new_op_timestamp_exc_lower_bound kInitialTimestamp with hc | hc
        · rw [max_eq_right hc] at hlb
          have : v < kInitialTimestamp := Nat.lt_of_lt_of_le hlt hlb
          exact absurd hv1 (Nat.not_le_of_lt this)
        · rw [max_eq_left hc] at hlb
          exact Nat.lt_of_lt_of_le hlt hlb
    unfold IsCommitted
    rw [if_pos hlt']
  · -- committed through the explicit set
    by_cases hge : (AdjustCleanTimeUnlocked m).cur_snap.all_committed_before ≤ v
    · refine IsCommitted_true_of_mem ?_
      rw [adjust_committed]
      exact mem_FilterTimestamps.mpr ⟨hmem, hge⟩
    · unfold IsCommitted
      rw [if_pos (Nat.lt_of_not_le hge)]

/-! ### Per-operation facts -/

theorem ite_lt_min (t e : Nat) : (if t < e then t else e) = Nat.min t e := by
  by_cases h : t < e
  · rw [if_pos h, natMin_eq_left (Nat.le_of_lt h)]
  · rw [if_neg h, natMin_eq_right (Nat.le_of_not_lt h)]

theorem advance_earliest_eq (m : MvccManager) :
    (AdvanceEarliestInFlightTimestamp m).earliest_in_flight =
      minKey m.timestamps_in_flight := by
  unfold AdvanceEarliestInFlightTimestamp
  split
  · next h => rw [List.isEmpty_iff.mp h]; rfl
  · rfl

theorem advance_inflight (m : MvccManager) :
    (AdvanceEarliestInFlightTimestamp m).timestamps_in_flight = m.timestamps_in_flight := by
  unfold AdvanceEarliestInFlightTimestamp
  split <;> rfl

theorem advance_snap (m : MvccManager) :
    (AdvanceEarliestInFlightTimestamp m).cur_snap = m.cur_snap := by
  unfold AdvanceEarliestInFlightTimestamp
  split <;> rfl

theorem advance_lb (m : MvccManager) :
    (AdvanceEarliestInFlightTimestamp m).new_op_timestamp_exc_lower_bound =
      m.new_op_timestamp_exc_lower_bound := by
  unfold AdvanceEarliestInFlightTimestamp
  split <;> rfl

theorem advance_open (m : MvccManager) :
    (AdvanceEarliestInFlightTimestamp m).open_ = m.open_ := by
  unfold AdvanceEarliestInFlightTimestamp
  split <;> rfl

theorem applying_map_keys (l : List (Ts × TxnState)) (t : Ts) :
    (l.map (fun p => if p.1 = t then (p.1, TxnState.APPLYING) else p)).map Prod.fst =
      l.map Prod.fst := by
  rw [List.map_map]
  refine List.map_congr_left ?_
  intro p _
  show (if p.1 = t then (p.1, TxnState.APPLYING) else p).1 = p.1
  split <;> rfl

theorem applying_map_minKey (l : List (Ts × TxnState)) (t : Ts) :
    minKey (l.map (fun p => if p.1 = t then (p.1, TxnState.APPLYING) else p)) = minKey l := by
  unfold minKey
  rw [applying_map_keys]

/-- `StartOp` facts: it preserves the invariant and does not touch the
snapshot. -/
theorem StartOp_facts {m m' : MvccManager} {t : Ts} (h : Inv m) (ht : t ≤ kMaxTimestamp)
    (hs : StartOp m t = some m') : Inv m' ∧ m'.cur_snap = m.cur_snap := by
  unfold StartOp at hs
  by_cases hcom : IsCommitted m.cur_snap t = true
  · rw [if_pos hcom] at hs; cases hs
  rw [if_neg hcom] at hs
  have hacbt : m.cur_snap.all_committed_before ≤ t := acb_le_of_not_committed hcom
  unfold InitOpUnlocked at hs
  by_cases hlb : t ≤ m.new_op_timestamp_exc_lower_bound
  · rw [if_pos hlb] at hs; cases hs
  rw [if_neg hlb] at hs
  have ht1 : kInitialTimestamp ≤ t :=
    Nat.lt_of_le_of_lt (Nat.zero_le _) (Nat.lt_of_not_le hlb)
  by_cases he : t < m.earliest_in_flight
  · rw [if_pos he] at hs
    dsimp only at hs
    by_cases hf : ((findInFlight m.timestamps_in_flight t).isSome : Prop)
    · rw [if_pos hf] at hs; cases hs
    rw [if_neg hf] at hs
    cases Option.some.inj hs
    refine ⟨⟨h.snap, h.acb_le_lb, h.lb_le_max, hacbt, ht, ?_, ?_⟩, rfl⟩
    · intro p hp
      rcases List.mem_cons.mp hp with hp | hp
      · subst hp
        exact ⟨Nat.le_refl t, ht1, ht⟩
      · rcases h.inflight_bounds p hp with ⟨h1, h2, h3⟩
        exact ⟨Nat.le_trans (Nat.le_of_lt he) h1, h2, h3⟩
    · intro hopen
      show t = minKey ((t, TxnState.RESERVED) :: m.timestamps_in_flight)
      rw [minKey_cons t _ _ ht, ← h.earliest_exact hopen,
        natMin_eq_left (Nat.le_of_lt he)]
  · rw [if_neg he] at hs
    dsimp only at hs
    have he' : m.earliest_in_flight ≤ t := Nat.le_of_not_lt he
    by_cases hf : ((findInFlight m.timestamps_in_flight t).isSome : Prop)
    · rw [if_pos hf] at hs; cases hs
    rw [if_neg hf] at hs
    cases Option.some.inj hs
    refine ⟨⟨h.snap, h.acb_le_lb, h.lb_le_max, h.acb_le_earliest, h.earliest_le_max,
      ?_, ?_⟩, rfl⟩
    · intro p hp
      rcases List.mem_cons.mp hp with hp | hp
      · subst hp
        exact ⟨he', ht1, ht⟩
      · exact h.inflight_bounds p hp
    · intro hopen
      show m.earliest_in_flight = minKey ((t, TxnState.RESERVED) :: m.timestamps_in_flight)
      rw [minKey_cons t _ _ ht, ← h.earliest_exact hopen, natMin_eq_right he']

/-- `StartApplyingOp` facts: invariant preserved, snapshot untouched. -/
theorem StartApplyingOp_facts {m m' : MvccManager} {t : Ts} (h : Inv m)
    (hs : StartApplyingOp m t = some m') : Inv m' ∧ m'.cur_snap = m.cur_snap := by
  unfold StartApplyingOp at hs
  rcases hfind : findInFlight m.timestamps_in_flight t with _ | st
  · rw [hfind] at hs; cases hs
  rw [hfind] at hs
  cases st with
  | APPLYING => cases hs
  | RESERVED =>
      dsimp only at hs
      cases Option.some.inj hs
      refine ⟨⟨h.snap, h.acb_le_lb, h.lb_le_max, h.acb_le_earliest, h.earliest_le_max,
        ?_, ?_⟩, rfl⟩
      · intro p hp
        rcases List.mem_map.mp hp with ⟨q, hq, hqe⟩
        have hk : p.1 = q.1 := by
          subst hqe
          split <;> rfl
        rw [hk]
        exact h.inflight_bounds q hq
      · intro hopen
        show m.earliest_in_flight = _
        rw [applying_map_minKey]
        exact h.earliest_exact hopen

/-- `AbortOp` facts: invariant preserved, snapshot untouched. -/
theorem AbortOp_facts {m m' : MvccManager} {t : Ts} (h : Inv m)
    (hs : AbortOp m t = some m') : Inv m' ∧ m'.cur_snap = m.cur_snap := by
  unfold AbortOp RemoveInFlightAndGetStateUnlocked at hs
  rcases hfind : findInFlight m.timestamps_in_flight t with _ | st
  · rw [hfind] at hs; cases hs
  rw [hfind] at hs
  dsimp only at hs
  have hmem : (t, st) ∈ m.timestamps_in_flight := findInFlight_some hfind
  have hne : m.timestamps_in_flight ≠ [] := by
    intro hnil
    rw [hnil] at hmem
    cases hmem
  have hsubsetB : ∀ p ∈ removeInFlight m.timestamps_in_flight t,
      m.earliest_in_flight ≤ p.1 ∧ kInitialTimestamp ≤ p.1 ∧ p.1 ≤ kMaxTimestamp :=
    fun p hp => h.inflight_bounds p (mem_removeInFlight.mp hp).1
  by_cases hop : m.open_ = false
  · rw [if_pos hop] at hs
    cases Option.some.inj hs
    refine ⟨⟨h.snap, h.acb_le_lb, h.lb_le_max, h.acb_le_earliest, h.earliest_le_max,
      hsubsetB, ?_⟩, rfl⟩
    intro hopen
    have hopen' : m.open_ = true := hopen
    rw [hop] at hopen'
    cases hopen'.symm
  rw [if_neg hop] at hs
  by_cases hst : st = TxnState.RESERVED
  · subst hst
    rw [if_neg (by simp)] at hs
    by_cases hearliest : m.earliest_in_flight = t
    · rw [if_pos hearliest] at hs
      cases Option.some.inj hs
      have hopen : m.open_ = true := by
        cases hob : m.open_
        · exact absurd hob hop
        · rfl
      refine ⟨⟨?_, ?_, ?_, ?_, ?_, ?_, ?_⟩, by rw [advance_snap]⟩
      · rw [advance_snap]; exact h.snap
      · rw [advance_snap, advance_lb]; exact h.acb_le_lb
      · rw [advance_lb]; exact h.lb_le_max
      · rw [advance_snap, advance_earliest_eq]
        refine le_minKey _ _ (Nat.le_trans h.acb_le_earliest h.earliest_le_max) ?_
        intro p hp
        exact Nat.le_trans h.acb_le_earliest (hsubsetB p (by simpa using hp)).1
      · rw [advance_earliest_eq]
        refine minKey_le_max _ ?_
        intro p hp
        exact (hsubsetB p (by simpa using hp)).2.2
      · rw [advance_earliest_eq, advance_inflight]
        intro p hp
        exact ⟨minKey_le_mem _ p (by simpa using hp), (hsubsetB p (by simpa using hp)).2.1,
          (hsubsetB p (by simpa using hp)).2.2⟩
      · intro _
        rw [advance_earliest_eq, advance_inflight]
    · rw [if_neg hearliest] at hs
      cases Option.some.inj hs
      refine ⟨⟨h.snap, h.acb_le_lb, h.lb_le_max, h.acb_le_earliest, h.earliest_le_max,
        hsubsetB, ?_⟩, rfl⟩
      intro hopen
      show m.earliest_in_flight = minKey (removeInFlight m.timestamps_in_flight t)
      have hopen' : m.open_ = true := hopen
      rw [h.earliest_exact hopen']
      refine (minKey_remove_ne m.timestamps_in_flight t ?_ hne ?_).symm
      · rw [← h.earliest_exact hopen']
        exact hearliest
      · intro p hp
        exact (h.inflight_bounds p hp).2.2
  · rw [if_pos (by simpa using hst)] at hs
    cases hs

/-- `CommitOpUnlocked` facts: invariant preserved, `t` becomes committed,
committedness of other timestamps is preserved, the clean watermark and the
lower bound are untouched, and when `t` was the earliest in-flight the
recomputed `earliest_in_flight` is at least `t`. -/
theorem CommitOpUnlocked_facts {m : MvccManager} {t : Ts} {b : Bool} {mf : MvccManager}
    (h : Inv m) (ht : t ≤ kMaxTimestamp)
    (hc : CommitOpUnlocked m t = some (b, mf)) :
    Inv mf ∧ IsCommitted mf.cur_snap t = true ∧ kInitialTimestamp ≤ t ∧
    (∀ v, IsCommitted m.cur_snap v = true → IsCommitted mf.cur_snap v = true) ∧
    mf.cur_snap.all_committed_before = m.cur_snap.all_committed_before ∧
    mf.new_op_timestamp_exc_lower_bound = m.new_op_timestamp_exc_lower_bound ∧
    (b = true → m.earliest_in_flight = t) ∧
    (b = true → t ≤ mf.earliest_in_flight) := by
  unfold CommitOpUnlocked RemoveInFlightAndGetStateUnlocked at hc
  rcases hfind : findInFlight m.timestamps_in_flight t with _ | st
  · rw [hfind] at hc; cases hc
  rw [hfind] at hc
  dsimp only at hc
  cases st with
  | RESERVED => rw [if_pos (by simp)] at hc; cases hc
  | APPLYING =>
      rw [if_neg (by simp)] at hc
      have hmem : (t, TxnState.APPLYING) ∈ m.timestamps_in_flight := findInFlight_some hfind
      have hne : m.timestamps_in_flight ≠ [] := by
        intro hnil
        rw [hnil] at hmem
        cases hmem
      have ht1 : kInitialTimestamp ≤ t := (h.inflight_bounds _ hmem).2.1
      have hsnapOk : SnapOk (AddCommittedTimestamp m.cur_snap t) :=
        AddCommittedTimestamp_snapOk t h.snap
      have hacbeq := AddCommittedTimestamp_acb m.cur_snap t
      have hsubsetB : ∀ p ∈ removeInFlight m.timestamps_in_flight t,
          m.earliest_in_flight ≤ p.1 ∧ kInitialTimestamp ≤ p.1 ∧ p.1 ≤ kMaxTimestamp :=
        fun p hp => h.inflight_bounds p (mem_removeInFlight.mp hp).1
      by_cases hearliest : m.earliest_in_flight = t
      · rw [if_pos hearliest] at hc
        cases Option.some.inj hc
        refine ⟨⟨?_, ?_, ?_, ?_, ?_, ?_, ?_⟩, ?_, ht1, ?_, ?_, ?_, ?_, ?_⟩
        · rw [advance_snap]; exact hsnapOk
        · rw [advance_snap, advance_lb]
          show (AddCommittedTimestamp m.cur_snap t).all_committed_before ≤ _
          rw [hacbeq]
          exact h.acb_le_lb
        · rw [advance_lb]; exact h.lb_le_max
        · rw [advance_snap, advance_earliest_eq]
          show (AddCommittedTimestamp m.cur_snap t).all_committed_before ≤ _
          rw [hacbeq]
          refine le_minKey _ _ (Nat.le_trans h.acb_le_earliest h.earliest_le_max) ?_
          intro p hp
          exact Nat.le_trans h.acb_le_earliest (hsubsetB p (by simpa using hp)).1
        · rw [advance_earliest_eq]
          refine minKey_le_max _ ?_
          intro p hp
          exact (hsubsetB p (by simpa using hp)).2.2
        · rw [advance_earliest_eq, advance_inflight]
          intro p hp
          exact ⟨minKey_le_mem _ p (by simpa using hp), (hsubsetB p (by simpa using hp)).2.1,
            (hsubsetB p (by simpa using hp)).2.2⟩
        · intro _
          rw [advance_earliest_eq, advance_inflight]
        · rw [advance_snap]
          exact AddCommittedTimestamp_committed m.cur_snap t
        · intro v hv
          rw [advance_snap]
          exact AddCommittedTimestamp_mono t hv
        · rw [advance_snap]
          exact hacbeq
        · rw [advance_lb]
        · intro _
          exact hearliest
        · intro _
          rw [advance_earliest_eq]
          refine le_minKey _ _ ht ?_
          intro p hp
          rw [← hearliest]
          exact (hsubsetB p hp).1
      · rw [if_neg hearliest] at hc
        cases Option.some.inj hc
        refine ⟨⟨?_, ?_, ?_, ?_, ?_, ?_, ?_⟩, ?_, ht1, ?_, ?_, ?_, ?_, ?_⟩
        · exact hsnapOk
        · show (AddCommittedTimestamp m.cur_snap t).all_committed_before ≤ _
          rw [hacbeq]
          exact h.acb_le_lb
        · exact h.lb_le_max
        · show (AddCommittedTimestamp m.cur_snap t).all_committed_before ≤ _
          rw [hacbeq]
          exact h.acb_le_earliest
        · exact h.earliest_le_max
        · exact hsubsetB
        · intro hopen
          have hopen' : m.open_ = true := hopen
          show m.earliest_in_flight = minKey (removeInFlight m.timestamps_in_flight t)
          rw [h.earliest_exact hopen']
          refine (minKey_remove_ne m.timestamps_in_flight t ?_ hne ?_).symm
          · rw [← h.earliest_exact hopen']
            exact hearliest
          · intro p hp
            exact (h.inflight_bounds p hp).2.2
        · exact AddCommittedTimestamp_committed m.cur_snap t
        · intro v hv
          exact AddCommittedTimestamp_mono t hv
        · exact hacbeq
        · rfl
        · intro hb
          cases hb
        · intro hb
          cases hb

/-- `CommitOp` facts: invariant preserved, `t` becomes and stays committed,
previously committed timestamps (at or above `kInitialTimestamp`) remain
committed, and the clean watermark does not move backwards. -/
theorem CommitOp_facts {m m' : MvccManager} {t : Ts} (h : Inv m) (ht : t ≤ kMaxTimestamp)
    (hc : CommitOp m t = some m') :
    Inv m' ∧ IsCommitted m'.cur_snap t = true ∧ kInitialTimestamp ≤ t ∧
    (∀ v, kInitialTimestamp ≤ v → IsCommitted m.cur_snap v = true →
      IsCommitted m'.cur_snap v = true) ∧
    m.cur_snap.all_committed_before ≤ m'.cur_snap.all_committed_before := by
  unfold CommitOp at hc
  rcases hcu : CommitOpUnlocked m t with _ | bmf
  · rw [hcu] at hc; cases hc
  rcases bmf with ⟨b, mf⟩
  rw [hcu] at hc
  obtain ⟨hInvF, hcomF, ht1, hpresF, hacbF, hlbF, hbe, hbearliest⟩ :=
    CommitOpUnlocked_facts h ht hcu
  dsimp only at hc
  by_cases hguard : b = true ∧ mf.new_op_timestamp_exc_lower_bound ≥ t
  · rw [if_pos hguard] at hc
    cases Option.some.inj hc
    refine ⟨adjust_Inv mf hInvF, ?_, ht1, ?_, ?_⟩
    · exact adjust_IsCommitted_pres mf t hInvF.acb_le_earliest hInvF.acb_le_lb ht1 hcomF
    · intro v hv hcom
      exact adjust_IsCommitted_pres mf v hInvF.acb_le_earliest hInvF.acb_le_lb hv
        (hpresF v hcom)
    · have hmt : m.cur_snap.all_committed_before ≤ t := by
        rw [← hbe hguard.1]
        exact h.acb_le_earliest
      refine Nat.le_trans hmt ?_
      rw [adjust_acb]
      split
      · exact hbearliest hguard.1
      · exact hguard.2
  · rw [if_neg hguard] at hc
    cases Option.some.inj hc
    exact ⟨hInvF, hcomF, ht1, fun v _ hcom => hpresF v hcom, Nat.le_of_eq hacbF.symm⟩

/-- `Inv` does not mention the waiter list. -/
theorem Inv_waiters_irrel (m : MvccManager) (w : List WaitingState) (h : Inv m) :
    Inv { m with waiters := w } :=
  ⟨h.snap, h.acb_le_lb, h.lb_le_max, h.acb_le_earliest, h.earliest_le_max,
    h.inflight_bounds, h.earliest_exact⟩

theorem Close_facts (m : MvccManager) (h : Inv m) :
    Inv (Close m) ∧ (Close m).cur_snap = m.cur_snap := by
  refine ⟨⟨h.snap, h.acb_le_lb, h.lb_le_max, h.acb_le_earliest, h.earliest_le_max,
    h.inflight_bounds, ?_⟩, rfl⟩
  intro hopen
  exact absurd hopen (Bool.false_ne_true)

theorem WaitUntilRegister_facts (m : MvccManager) (wf : WaitFor) (ts : Ts) (h : Inv m) :
    Inv (WaitUntilRegister m wf ts) ∧ (WaitUntilRegister m wf ts).cur_snap = m.cur_snap := by
  unfold WaitUntilRegister
  split
  · exact ⟨h, rfl⟩
  · split
    · exact ⟨h, rfl⟩
    · exact ⟨Inv_waiters_irrel m _ h, rfl⟩

theorem WaiterTimeoutRemove_facts (m : MvccManager) (i : Nat) (h : Inv m) :
    Inv (WaiterTimeoutRemove m i) ∧ (WaiterTimeoutRemove m i).cur_snap = m.cur_snap :=
  ⟨Inv_waiters_irrel m _ h, rfl⟩

/-- `AdjustNewOpLowerBound` facts: invariant preserved, committed timestamps
at or above `kInitialTimestamp` stay committed, and when called with an
argument at or above `kInitialTimestamp` the clean watermark does not move
backwards. -/
theorem AdjustNewOpLowerBound_facts (m : MvccManager) (t : Ts) (h : Inv m)
    (ht : t ≤ kMaxTimestamp) :
    Inv (AdjustNewOpLowerBound m t) ∧
    (∀ v, kInitialTimestamp ≤ v → IsCommitted m.cur_snap v = true →
      IsCommitted (AdjustNewOpLowerBound m t).cur_snap v = true) ∧
    (kInitialTimestamp ≤ t →
      m.cur_snap.all_committed_before ≤
        (AdjustNewOpLowerBound m t).cur_snap.all_committed_before) := by
  unfold AdjustNewOpLowerBound
  by_cases hle : m.new_op_timestamp_exc_lower_bound ≤ t
  · rw [if_pos hle]
    have hInvI : Inv { m with new_op_timestamp_exc_lower_bound := t } := by
      refine ⟨h.snap, ?_, ht, h.acb_le_earliest, h.earliest_le_max,
        h.inflight_bounds, h.earliest_exact⟩
      exact Nat.le_trans h.acb_le_lb (max_le_max hle (Nat.le_refl _))
    refine ⟨adjust_Inv _ hInvI, ?_, ?_⟩
    · intro v hv hcom
      exact adjust_IsCommitted_pres _ v hInvI.acb_le_earliest hInvI.acb_le_lb hv hcom
    · intro ht1
      rw [adjust_acb]
      split
      · exact h.acb_le_earliest
      · exact Nat.le_trans h.acb_le_lb (Nat.max_le.mpr ⟨hle, ht1⟩)
  · rw [if_neg hle]
    exact ⟨h, fun v _ hcom => hcom, fun _ => Nat.le_refl _⟩

/-- One legal operation preserves the invariant and the committedness of any
timestamp at or above `kInitialTimestamp`. -/
theorem applyOp_facts {m m' : MvccManager} {op : MvccOp} (h : Inv m)
    (ha : applyOp m op = some m') :
    Inv m' ∧
    (∀ v, kInitialTimestamp ≤ v → IsCommitted m.cur_snap v = true →
      IsCommitted m'.cur_snap v = true) := by
  cases op with
  | startOp t =>
      simp only [applyOp] at ha
      by_cases htk : (tsOk t : Prop)
      · rw [if_pos htk] at ha
        obtain ⟨hi, hsnap⟩ := StartOp_facts h (of_decide_eq_true htk) ha
        exact ⟨hi, fun v _ hcom => hsnap ▸ hcom⟩
      · rw [if_neg htk] at ha; cases ha
  | startApplyingOp t =>
      simp only [applyOp] at ha
      by_cases htk : (tsOk t : Prop)
      · rw [if_pos htk] at ha
        obtain ⟨hi, hsnap⟩ := StartApplyingOp_facts h ha
        exact ⟨hi, fun v _ hcom => hsnap ▸ hcom⟩
      · rw [if_neg htk] at ha; cases ha
  | commitOp t =>
      simp only [applyOp] at ha
      by_cases htk : (tsOk t : Prop)
      · rw [if_pos htk] at ha
        obtain ⟨hi, _, _, hpres, _⟩ := CommitOp_facts h (of_decide_eq_true htk) ha
        exact ⟨hi, hpres⟩
      · rw [if_neg htk] at ha; cases ha
  | abortOp t =>
      simp only [applyOp] at ha
      by_cases htk : (tsOk t : Prop)
      · rw [if_pos htk] at ha
        obtain ⟨hi, hsnap⟩ := AbortOp_facts h ha
        exact ⟨hi, fun v _ hcom => hsnap ▸ hcom⟩
      · rw [if_neg htk] at ha; cases ha
  | adjustNewOpLowerBound t =>
      simp only [applyOp] at ha
      by_cases htk : (tsOk t : Prop)
      · rw [if_pos htk] at ha
        cases Option.some.inj ha
        obtain ⟨hi, hpres, _⟩ := AdjustNewOpLowerBound_facts m t h (of_decide_eq_true htk)
        exact ⟨hi, hpres⟩
      · rw [if_neg htk] at ha; cases ha
  | close =>
      simp only [applyOp] at ha
      cases Option.some.inj ha
      obtain ⟨hi, hsnap⟩ := Close_facts m h
      exact ⟨hi, fun v _ hcom => hsnap ▸ hcom⟩
  | waitRegister wf t =>
      simp only [applyOp] at ha
      by_cases htk : (tsOk t : Prop)
      · rw [if_pos htk] at ha
        cases Option.some.inj ha
        obtain ⟨hi, hsnap⟩ := WaitUntilRegister_facts m wf t h
        exact ⟨hi, fun v _ hcom => hsnap ▸ hcom⟩
      · rw [if_neg htk] at ha; cases ha
  | waiterTimeout i =>
      simp only [applyOp] at ha
      cases Option.some.inj ha
      obtain ⟨hi, hsnap⟩ := WaiterTimeoutRemove_facts m i h
      exact ⟨hi, fun v _ hcom => hsnap ▸ hcom⟩

/-- Sequences of legal operations preserve the invariant and committedness. -/
theorem runOps_facts {m m' : MvccManager} {ops : List MvccOp} (h : Inv m)
    (hr : runOps m ops = some m') :
    Inv m' ∧
    (∀ v, kInitialTimestamp ≤ v → IsCommitted m.cur_snap v = true →
      IsCommitted m'.cur_snap v = true) := by
  induction ops generalizing m with
  | nil =>
      cases Option.some.inj hr
      exact ⟨h, fun v _ hcom => hcom⟩
  | cons op ops ih =>
      unfold runOps at hr
      rcases happ : applyOp m op with _ | mi
      · rw [happ] at hr; cases hr
      rw [happ] at hr
      obtain ⟨hi, hpres⟩ := applyOp_facts h happ
      obtain ⟨hi', hpres'⟩ := ih hi hr
      exact ⟨hi', fun v hv hcom => hpres' v hv (hpres v hv hcom)⟩

theorem Inv_mvccInit : Inv mvccInit := by
  refine ⟨⟨Nat.le_refl _, ?_⟩, ?_, ?_, ?_, ?_, ?_, ?_⟩
  · intro v hv
    cases hv
  · exact Nat.le_max_right _ _
  · exact Nat.zero_le _
  · decide
  · exact Nat.le_refl _
  · intro p hp
    cases hp
  · intro _
    rfl

theorem Reachable_Inv {m : MvccManager} (h : Reachable m) : Inv m := by
  rcases h with ⟨ops, hr⟩
  exact (runOps_facts Inv_mvccInit hr).1

/-- The clean watermark never moves backwards under a legal operation whose
`adjust_new_op_lower_bound` argument (if any) is at least `kInitialTimestamp`. -/
theorem applyOp_acb_mono {m m' : MvccManager} {op : MvccOp} (h : Inv m)
    (ha : applyOp m op = some m')
    (hadj : ∀ u, op = MvccOp.adjustNewOpLowerBound u → kInitialTimestamp ≤ u) :
    m.cur_snap.all_committed_before ≤ m'.cur_snap.all_committed_before := by
  cases op with
  | startOp t =>
      simp only [applyOp] at ha
      by_cases htk : (tsOk t : Prop)
      · rw [if_pos htk] at ha
        rw [(StartOp_facts h (of_decide_eq_true htk) ha).2]
      · rw [if_neg htk] at ha; cases ha
  | startApplyingOp t =>
      simp only [applyOp] at ha
      by_cases htk : (tsOk t : Prop)
      · rw [if_pos htk] at ha
        rw [(StartApplyingOp_facts h ha).2]
      · rw [if_neg htk] at ha; cases ha
  | commitOp t =>
      simp only [applyOp] at ha
      by_cases htk : (tsOk t : Prop)
      · rw [if_pos htk] at ha
        exact (CommitOp_facts h (of_decide_eq_true htk) ha).2.2.2.2
      · rw [if_neg htk] at ha; cases ha
  | abortOp t =>
      simp only [applyOp] at ha
      by_cases htk : (tsOk t : Prop)
      · rw [if_pos htk] at ha
        rw [(AbortOp_facts h ha).2]
      · rw [if_neg htk] at ha; cases ha
  | adjustNewOpLowerBound t =>
      simp only [applyOp] at ha
      by_cases htk : (tsOk t : Prop)
      · rw [if_pos htk] at ha
        cases Option.some.inj ha
        exact (AdjustNewOpLowerBound_facts m t h (of_decide_eq_true htk)).2.2 (hadj t rfl)
      · rw [if_neg htk] at ha; cases ha
  | close =>
      simp only [applyOp] at ha
      cases Option.some.inj ha
      rw [(Close_facts m h).2]
  | waitRegister wf t =>
      simp only [applyOp] at ha
      by_cases htk : (tsOk t : Prop)
      · rw [if_pos htk] at ha
        cases Option.some.inj ha
        rw [(WaitUntilRegister_facts m wf t h).2]
      · rw [if_neg htk] at ha; cases ha
  | waiterTimeout i =>
      simp only [applyOp] at ha
      cases Option.some.inj ha
      rw [(WaiterTimeoutRemove_facts m i h).2]

/-- A successful `CommitOp` implies the timestamp was in flight as APPLYING. -/
theorem CommitOp_inflight_mem {m m' : MvccManager} {t : Ts}
    (hc : CommitOp m t = some m') :
    (t, TxnState.APPLYING) ∈ m.timestamps_in_flight := by
  unfold CommitOp CommitOpUnlocked RemoveInFlightAndGetStateUnlocked at hc
  rcases hfind : findInFlight m.timestamps_in_flight t with _ | st
  · rw [hfind] at hc; cases hc
  rw [hfind] at hc
  dsimp only at hc
  cases st with
  | RESERVED => rw [if_pos (by simp)] at hc; cases hc
  | APPLYING => exact findInFlight_some hfind

/-- `CommitOpUnlocked` without any invariant assumption: the clean watermark
and the lower bound are untouched, and the returned flag is exactly the
`was_earliest` test. -/
theorem CommitOpUnlocked_raw {m : MvccManager} {t : Ts} {b : Bool} {mf : MvccManager}
    (hc : CommitOpUnlocked m t = some (b, mf)) :
    mf.cur_snap.all_committed_before = m.cur_snap.all_committed_before ∧
    mf.new_op_timestamp_exc_lower_bound = m.new_op_timestamp_exc_lower_bound ∧
    (b = true ↔ m.earliest_in_flight = t) := by
  unfold CommitOpUnlocked RemoveInFlightAndGetStateUnlocked at hc
  rcases hfind : findInFlight m.timestamps_in_flight t with _ | st
  · rw [hfind] at hc; cases hc
  rw [hfind] at hc
  dsimp only at hc
  cases st with
  | RESERVED => rw [if_pos (by simp)] at hc; cases hc
  | APPLYING =>
      rw [if_neg (by simp)] at hc
      by_cases hearliest : m.earliest_in_flight = t
      · rw [if_pos hearliest] at hc
        cases Option.some.inj hc
        refine ⟨?_, ?_, by simp [hearliest]⟩
        · rw [advance_snap]
          exact AddCommittedTimestamp_acb m.cur_snap t
        · rw [advance_lb]
      · rw [if_neg hearliest] at hc
        cases Option.some.inj hc
        exact ⟨AddCommittedTimestamp_acb m.cur_snap t, rfl, by simp [hearliest]⟩

/-! ### The claims -/

/-- **C1.** For every timestamp `t` and reachable coordinator state, once
`commit_op(t)` has returned, every snapshot subsequently obtained by
`take_snapshot()` — after any further sequence of legal operations —
satisfies `is_committed(t) = true`: `t` is either strictly below
`all_committed_before` or in the explicit committed set. -/
theorem C1_commit_then_always_committed {m m' m'' : MvccManager} {t : Ts}
    {ops : List MvccOp}
    (hreach : Reachable m) (hcommit : CommitOp m t = some m')
    (hrun : runOps m' ops = some m'') :
    IsCommitted (TakeSnapshot m'') t = true ∧
      (t < (TakeSnapshot m'').all_committed_before ∨
        t ∈ (TakeSnapshot m'').committed_timestamps) := by
  have hInv := Reachable_Inv hreach
  have hmem := CommitOp_inflight_mem hcommit
  have ht : t ≤ kMaxTimestamp := (hInv.inflight_bounds _ hmem).2.2
  obtain ⟨hInv', hcom', ht1, _, _⟩ := CommitOp_facts hInv ht hcommit
  have hfin := (runOps_facts hInv' hrun).2 t ht1 hcom'
  exact ⟨hfin, IsCommitted_cases hfin⟩

theorem C1_witness :
    IsCommitted (TakeSnapshot mgrCommittedOneStartedTwo) 1 = true ∧
      (1 < (TakeSnapshot mgrCommittedOneStartedTwo).all_committed_before ∨
        1 ∈ (TakeSnapshot mgrCommittedOneStartedTwo).committed_timestamps) :=
  @C1_commit_then_always_committed mgrApplyingOne mgrCommittedOne
    mgrCommittedOneStartedTwo 1 [MvccOp.startOp 2]
    ⟨[MvccOp.startOp 1, MvccOp.startApplyingOp 1], by decide⟩ (by decide) (by decide)

/-- **C2.** After clean-time recomputation: `all_committed_before` equals
`earliest_in_flight` if `earliest_in_flight < new_op_exc_lb` and equals
`new_op_exc_lb` otherwise; the explicit set becomes exactly the old one with
every value strictly below the new watermark removed (so every remaining
value is at or above it); and if the explicit set is then empty,
`none_committed_at_or_after` equals `all_committed_before`. -/
theorem C2_adjust_clean_time_post (m : MvccManager) :
    (AdjustCleanTimeUnlocked m).cur_snap.all_committed_before =
      (if m.earliest_in_flight < m.new_op_timestamp_exc_lower_bound then
        m.earliest_in_flight else m.new_op_timestamp_exc_lower_bound) ∧
    (AdjustCleanTimeUnlocked m).cur_snap.committed_timestamps =
      FilterTimestamps m.cur_snap.committed_timestamps
        (AdjustCleanTimeUnlocked m).cur_snap.all_committed_before ∧
    (∀ v ∈ (AdjustCleanTimeUnlocked m).cur_snap.committed_timestamps,
      (AdjustCleanTimeUnlocked m).cur_snap.all_committed_before ≤ v) ∧
    ((AdjustCleanTimeUnlocked m).cur_snap.committed_timestamps = [] →
      (AdjustCleanTimeUnlocked m).cur_snap.none_committed_at_or_after =
        (AdjustCleanTimeUnlocked m).cur_snap.all_committed_before) := by
  refine ⟨adjust_acb m, adjust_committed m, ?_, ?_⟩
  · intro v hv
    rw [adjust_committed] at hv
    exact (mem_FilterTimestamps.mp hv).2
  · intro hnil
    rw [adjust_ncaoa, hnil]
    rfl

/-- **C3.** In every reachable coordinator state the live snapshot satisfies
`all_committed_before ≤ none_committed_at_or_after`, and every value `v` in
`committed_timestamps` satisfies
`all_committed_before ≤ v < none_committed_at_or_after`. -/
theorem C3_live_snapshot_invariants {m : MvccManager} (hreach : Reachable m) :
    (TakeSnapshot m).all_committed_before ≤ (TakeSnapshot m).none_committed_at_or_after ∧
    ∀ v ∈ (TakeSnapshot m).committed_timestamps,
      (TakeSnapshot m).all_committed_before ≤ v ∧
        v < (TakeSnapshot m).none_committed_at_or_after := by
  have hs := (Reachable_Inv hreach).snap
  exact ⟨hs.acb_le_ncaoa, hs.mem_bounds⟩

theorem C3_witness :
    (TakeSnapshot mgrCommittedOne).all_committed_before ≤
      (TakeSnapshot mgrCommittedOne).none_committed_at_or_after ∧
    ∀ v ∈ (TakeSnapshot mgrCommittedOne).committed_timestamps,
      (TakeSnapshot mgrCommittedOne).all_committed_before ≤ v ∧
        v < (TakeSnapshot mgrCommittedOne).none_committed_at_or_after :=
  @C3_live_snapshot_invariants mgrCommittedOne
    ⟨[MvccOp.startOp 1, MvccOp.startApplyingOp 1, MvccOp.commitOp 1], by decide⟩

/-- **C4 counterexample.** The claim "no coordinator operation ever makes
`all_committed_before` smaller" is false: `adjust_new_op_lower_bound(kMin)`
on a fresh coordinator (a legal call that never fails) lowers the clean
timestamp from `kInitialTimestamp = 1` to `kMinTimestamp = 0`. -/
theorem C4_counterexample :
    runOps mvccInit [MvccOp.adjustNewOpLowerBound kMinTimestamp] =
      some mgrAdjustedToZero ∧
    GetCleanTimestamp mgrAdjustedToZero < GetCleanTimestamp mvccInit := by decide

/-- **C4, amended.** Across every reachable state, every legal operation
leaves `get_clean_timestamp()` non-decreasing, provided
`adjust_new_op_lower_bound` is only invoked with arguments at or above
`kInitialTimestamp` (the sole exception being an adjustment to a value below
`kInitialTimestamp`, which only `kMinTimestamp = 0` makes possible). -/
theorem C4_clean_timestamp_monotone {m m' : MvccManager} {op : MvccOp}
    (hreach : Reachable m) (ha : applyOp m op = some m')
    (hadj : ∀ u, op = MvccOp.adjustNewOpLowerBound u → kInitialTimestamp ≤ u) :
    GetCleanTimestamp m ≤ GetCleanTimestamp m' :=
  applyOp_acb_mono (Reachable_Inv hreach) ha hadj

theorem C4_witness :
    GetCleanTimestamp mvccInit ≤ GetCleanTimestamp mgrAdjustedToFive :=
  @C4_clean_timestamp_monotone mvccInit mgrAdjustedToFive
    (MvccOp.adjustNewOpLowerBound 5) ⟨[], rfl⟩ (by decide)
    (fun u hu => by injection hu with h; rw [← h]; decide)

/-- **C5 counterexample.** The claim fails for `abort_op` on a closed
coordinator: after `start_op(1); start_op(2); close(); abort_op(1)` the
in-flight table is non-empty but the cached `earliest_in_flight` (1) is not
its minimum key (2) — the closed-abort path skips
`AdvanceEarliestInFlightTimestamp`. -/
theorem C5_counterexample :
    runOps mvccInit
        [MvccOp.startOp 1, MvccOp.startOp 2, MvccOp.close, MvccOp.abortOp 1] =
      some mgrClosedStaleEarliest ∧
    mgrClosedStaleEarliest.timestamps_in_flight ≠ [] ∧
    mgrClosedStaleEarliest.earliest_in_flight ≠
      minKey mgrClosedStaleEarliest.timestamps_in_flight := by decide

/-- **C5, amended.** In every reachable state in which the coordinator is
still open, the cached `earliest_in_flight` equals the minimum key of the
in-flight table when it is non-empty and `kMaxTimestamp` when it is empty;
an `abort_op` on a closed coordinator may leave the cache stale. -/
theorem C5_earliest_exact_while_open {m : MvccManager} (hreach : Reachable m)
    (hopen : m.open_ = true) :
    (m.timestamps_in_flight = [] → m.earliest_in_flight = kMaxTimestamp) ∧
    (m.timestamps_in_flight ≠ [] →
      m.earliest_in_flight = minKey m.timestamps_in_flight) := by
  have he := (Reachable_Inv hreach).earliest_exact hopen
  refine ⟨?_, fun _ => he⟩
  intro hnil
  rw [he, hnil]
  rfl

theorem C5_witness :
    (mgrOpenStartedThree.timestamps_in_flight = [] →
      mgrOpenStartedThree.earliest_in_flight = kMaxTimestamp) ∧
    (mgrOpenStartedThree.timestamps_in_flight ≠ [] →
      mgrOpenStartedThree.earliest_in_flight =
        minKey mgrOpenStartedThree.timestamps_in_flight) :=
  @C5_earliest_exact_while_open mgrOpenStartedThree
    ⟨[MvccOp.startOp 3], by decide⟩ (by decide)

/-- **C6 counterexample.** The claim "regardless of whether `t` is present
in the in-flight table" is false: on a closed coordinator,
`abort_op(5)` with 5 absent from the table still hits the `LOG(FATAL)` in
`RemoveInFlightAndGetStateUnlocked` and terminates the process. -/
theorem C6_counterexample :
    (runOps mvccInit [MvccOp.close]).bind (fun m => AbortOp m 5) = none ∧
    (runOps mvccInit [MvccOp.close]).map (fun m => m.open_) = some false := by decide

/-- **C6, amended.** If the coordinator is closed and `t` is present in the
in-flight table — in either state, RESERVED or APPLYING — then `abort_op(t)`
succeeds silently (never terminates the process), merely removing the entry. -/
theorem C6_abort_while_closed_succeeds {m : MvccManager} {t : Ts} {st : TxnState}
    (hclosed : m.open_ = false)
    (hfind : findInFlight m.timestamps_in_flight t = some st) :
    AbortOp m t =
      some { m with timestamps_in_flight := removeInFlight m.timestamps_in_flight t } := by
  unfold AbortOp RemoveInFlightAndGetStateUnlocked
  rw [hfind]
  dsimp only
  rw [if_pos hclosed]

theorem C6_witness :
    AbortOp mgrClosedApplyingOne 1 =
      some { mgrClosedApplyingOne with
              timestamps_in_flight :=
                removeInFlight mgrClosedApplyingOne.timestamps_in_flight 1 } :=
  @C6_abort_while_closed_succeeds mgrClosedApplyingOne 1 TxnState.APPLYING rfl rfl

/-- **C7.** `commit_op(t)` leaves `all_committed_before` unchanged unless
`t` was the earliest in-flight timestamp and `new_op_exc_lb ≥ t`. -/
theorem C7_commit_frame {m m' : MvccManager} {t : Ts}
    (hc : CommitOp m t = some m')
    (hng : ¬ (m.earliest_in_flight = t ∧ t ≤ m.new_op_timestamp_exc_lower_bound)) :
    GetCleanTimestamp m' = GetCleanTimestamp m := by
  unfold CommitOp at hc
  rcases hcu : CommitOpUnlocked m t with _ | bmf
  · rw [hcu] at hc; cases hc
  rcases bmf with ⟨b, mf⟩
  rw [hcu] at hc
  dsimp only at hc
  obtain ⟨hacb, hlb, hbiff⟩ := CommitOpUnlocked_raw hcu
  have hg : ¬ (b = true ∧ mf.new_op_timestamp_exc_lower_bound ≥ t) := by
    intro hcon
    refine hng ⟨hbiff.mp hcon.1, ?_⟩
    rw [← hlb]
    exact hcon.2
  rw [if_neg hg] at hc
  cases Option.some.inj hc
  exact hacb

theorem C7_witness :
    GetCleanTimestamp mgrCommittedFifty = GetCleanTimestamp mgrApplyingFifty ∧
    GetCleanTimestamp mgrApplyingFifty = kInitialTimestamp ∧
    CommitOp mgrApplyingFifty 50 = some mgrCommittedFifty ∧
    IsCommitted (TakeSnapshot mgrCommittedFifty) 40 = false :=
  ⟨@C7_commit_frame mgrApplyingFifty mgrCommittedFifty 50 (by decide) (by decide),
   by decide, by decide, by decide⟩

/-- **C8.** For every timestamp `T`, the NONE_APPLYING(`T`) wait condition is
satisfied iff no timestamp `t ≤ T` appears in the in-flight table at all —
it is evaluated against every in-flight entry, RESERVED or APPLYING alike. -/
theorem C8_none_applying_scans_all_inflight (m : MvccManager) (T : Ts) :
    IsDoneWaitingUnlocked m (WaitingState.mk T WaitFor.NONE_APPLYING) = true ↔
      ∀ p ∈ m.timestamps_in_flight, T < p.1 := by
  show (!AnyApplyingAtOrBeforeUnlocked m T) = true ↔ _
  unfold AnyApplyingAtOrBeforeUnlocked
  rw [Bool.not_eq_true', List.any_eq_false]
  constructor
  · intro h p hp
    have := h p hp
    simpa [Nat.not_le] using this
  · intro h p hp
    simpa [Nat.not_le] using Nat.not_le.mpr (h p hp)

/-- **C9 counterexample.** A `begin` whose persistence fails does *not*
leave the manager unchanged: `highest_seen` is advanced under the lock
before the registry write and is not rolled back on failure. -/
theorem C9_counterexample :
    BeginTransaction (TxnStatusManager.mk 0 []) 5 "alice" false =
      some (TxnResult.persistFailed, TxnStatusManager.mk 5 []) ∧
    (5 : Int) ≠ 0 := by decide

/-- **C9, amended.** `begin(txn_id)` succeeds only when
`txn_id > highest_seen` and persistence succeeds, in which case it advances
`highest_seen` to `txn_id` and records an OPEN entry; any error leaves the
transaction map unchanged, and an invalid-argument error leaves the whole
state unchanged, but a persistence failure leaves `highest_seen` advanced to
`txn_id` (the in-memory advance precedes the registry write). -/
theorem C9_begin_transaction {m m' : TxnStatusManager} {txn_id : Int} {u : String}
    {pOk : Bool} {r : TxnResult}
    (hb : BeginTransaction m txn_id u pOk = some (r, m')) :
    (r = TxnResult.ok → m.highest_txn_id < txn_id ∧ pOk = true ∧
      m'.highest_txn_id = txn_id ∧
      m'.txns_by_id = m.txns_by_id ++ [(txn_id, TransactionEntry.mk TxnStatePB.OPEN u)]) ∧
    (r = TxnResult.invalidArgument → m' = m ∧ txn_id ≤ m.highest_txn_id) ∧
    (r = TxnResult.persistFailed → m'.txns_by_id = m.txns_by_id ∧
      m'.highest_txn_id = txn_id ∧ m.highest_txn_id < txn_id ∧ pOk = false) ∧
    (r ≠ TxnResult.ok → m'.txns_by_id = m.txns_by_id) := by
  unfold BeginTransaction at hb
  by_cases hile : txn_id ≤ m.highest_txn_id
  · rw [if_pos hile] at hb
    cases Option.some.inj hb
    refine ⟨?_, ?_, ?_, ?_⟩
    · intro hr; cases hr
    · intro _; exact ⟨rfl, hile⟩
    · intro hr; cases hr
    · intro _; rfl
  · rw [if_neg hile] at hb
    dsimp only at hb
    by_cases hp : pOk = false
    · rw [if_pos hp] at hb
      cases Option.some.inj hb
      refine ⟨?_, ?_, ?_, ?_⟩
      · intro hr; cases hr
      · intro hr; cases hr
      · intro _; exact ⟨rfl, rfl, not_le.mp hile, hp⟩
      · intro _; rfl
    · rw [if_neg hp] at hb
      by_cases hfind : ((m.txns_by_id.find? (fun p => p.1 == txn_id)).isSome : Prop)
      · rw [if_pos hfind] at hb; cases hb
      · rw [if_neg hfind] at hb
        cases Option.some.inj hb
        refine ⟨?_, ?_, ?_, ?_⟩
        · intro _
          refine ⟨not_le.mp hile, ?_, rfl, rfl⟩
          cases hpb : pOk
          · exact absurd hpb hp
          · rfl
        · intro hr; cases hr
        · intro hr; cases hr
        · intro hne; exact absurd rfl hne

theorem C9_witness :
    (TxnResult.ok = TxnResult.ok → txnMgrEmpty.highest_txn_id < 3 ∧ true = true ∧
      txnMgrOpenThree.highest_txn_id = 3 ∧
      txnMgrOpenThree.txns_by_id =
        txnMgrEmpty.txns_by_id ++ [((3 : Int), TransactionEntry.mk TxnStatePB.OPEN "u")]) ∧
    (TxnResult.ok = TxnResult.invalidArgument → txnMgrOpenThree = txnMgrEmpty ∧
      (3 : Int) ≤ txnMgrEmpty.highest_txn_id) ∧
    (TxnResult.ok = TxnResult.persistFailed →
      txnMgrOpenThree.txns_by_id = txnMgrEmpty.txns_by_id ∧
      txnMgrOpenThree.highest_txn_id = 3 ∧ txnMgrEmpty.highest_txn_id < 3 ∧
      true = false) ∧
    (TxnResult.ok ≠ TxnResult.ok → txnMgrOpenThree.txns_by_id = txnMgrEmpty.txns_by_id) :=
  @C9_begin_transaction txnMgrEmpty txnMgrOpenThree 3 "u" true TxnResult.ok (by decide)

/-- **C10.** The coordinator's destructor crashes the process exactly when a
waiter is still enqueued (`CHECK(waiters_.empty())`); `close()` drains the
waiter list, so a closed coordinator can always be destroyed. -/
theorem C10_destructor_requires_no_waiters (m : MvccManager) :
    (MvccManagerDestructor m = none ↔ m.waiters ≠ []) ∧
    (Close m).waiters = [] ∧ MvccManagerDestructor (Close m) = some () := by
  refine ⟨?_, rfl, rfl⟩
  unfold MvccManagerDestructor
  by_cases hw : (m.waiters.isEmpty : Prop)
  · rw [if_pos hw]
    rw [List.isEmpty_iff] at hw
    constructor
    · intro hcon; cases hcon
    · intro hne; exact absurd hw hne
  · rw [if_neg hw]
    rw [List.isEmpty_iff] at hw
    exact ⟨fun _ => hw, fun _ => rfl⟩

end Kudu
